import Mathlib

/-!
A shallow embedding of the document store and retrieval engine of the
Reflex-docs-mcp repository (`src/reflex_docs_mcp/database.py`), together
with proofs of the behavioural properties claimed for it.

Python strings are modelled as `List Char` wherever character-level
operations (slicing, prefix tests, `str.replace`, `str.split`) matter, and
as Lean `String` where only equality and ordering are used.  The SQLite
tables `docs_sections` and `components`, and the external-content FTS5
table `docs_sections_fts`, are modelled as lists of rows inside a `DB`
state; the `AFTER INSERT` / `AFTER DELETE` triggers of `init_db` run as
part of the same state transition as the triggering mutation, which is the
embedding of SQLite executing them inside the same transaction.
-/

namespace ReflexDocs

/-- A row of the `docs_sections` table (`init_db`): rowid `id` is assigned by
`INTEGER PRIMARY KEY AUTOINCREMENT`. -/
structure SectionRow where
  id : Nat
  slug : String
  title : String
  heading : String
  level : Int
  content : List Char
  position : Int
  url : String
deriving DecidableEq

/-- A row of the `docs_sections_fts` FTS5 table: the denormalized projection
(slug, title, heading, content) keyed by the section's rowid. -/
structure FtsEntry where
  rowid : Nat
  slug : String
  title : String
  heading : String
  content : List Char
deriving DecidableEq

/-- A row of the `components` table (`init_db`): `name TEXT NOT NULL UNIQUE`. -/
structure ComponentRow where
  name : List Char
  category : Option String
  description : String
  doc_slug : Option String
  url : Option String
deriving DecidableEq

/-- `DocResult` of `models.py`, as constructed in `search_sections`. -/
structure DocResult where
  slug : String
  title : String
  score : ℚ
  snippet : List Char
  url : String
deriving DecidableEq

/-- `DocSection` of `models.py`, as constructed in `get_page_sections`. -/
structure DocSection where
  heading : String
  level : Int
  content : List Char
deriving DecidableEq

/-- `DocPage` of `models.py`, as constructed in `get_page_sections`. -/
structure DocPage where
  slug : String
  title : String
  url : String
  sections : List DocSection
deriving DecidableEq

/-- `ComponentInfo` of `models.py`, as constructed in the component readers. -/
structure ComponentInfo where
  name : List Char
  category : Option String
  description : String
  doc_slug : Option String
  url : Option String
deriving DecidableEq

/-- The dict returned by `get_stats`. -/
structure Stats where
  sections : Nat
  pages : Nat
  components : Nat
deriving DecidableEq

/-- The persistent database state: the two record tables, the FTS5 index
table, and the next `AUTOINCREMENT` rowid for `docs_sections`. -/
structure DB where
  sections : List SectionRow
  fts : List FtsEntry
  components : List ComponentRow
  nextId : Nat
deriving DecidableEq

/-- `init_db`: freshly created empty tables (`CREATE TABLE IF NOT EXISTS`),
with `AUTOINCREMENT` starting at rowid 1. -/
def init_db : DB := ⟨[], [], [], 1⟩

/-- The projection a section row contributes to `docs_sections_fts`
(the `docs_sections_ai` trigger body). -/
def sectionProj (s : SectionRow) : FtsEntry :=
  ⟨s.id, s.slug, s.title, s.heading, s.content⟩

/-- `insert_section`: `INSERT INTO docs_sections ...`; the `docs_sections_ai`
`AFTER INSERT` trigger inserts the matching FTS row in the same transaction. -/
def insert_section (db : DB) (slug title heading : String) (level : Int)
    (content : List Char) (position : Int) (url : String) : DB :=
  let row : SectionRow :=
    ⟨db.nextId, slug, title, heading, level, content, position, url⟩
  { db with
    sections := db.sections ++ [row]
    fts := db.fts ++ [sectionProj row]
    nextId := db.nextId + 1 }

/-- `clear_db`: `DELETE FROM docs_sections` and `DELETE FROM components`.
The table has an `AFTER DELETE` trigger, so SQLite's truncate optimization is
disabled and `docs_sections_ad` fires once per deleted row, removing the FTS
entry carrying that row's rowid. -/
def clear_db (db : DB) : DB :=
  { db with
    sections := []
    fts := db.fts.filter (fun e => !(db.sections.any (fun s => s.id == e.rowid)))
    components := [] }

/-- `insert_component`: `INSERT OR REPLACE INTO components ...` — the row
conflicting on the `UNIQUE` column `name` (if any) is deleted and the new row
is inserted (with a fresh rowid, hence at the end in rowid order). -/
def insert_component (db : DB) (name : List Char) (category : Option String)
    (description : String) (doc_slug : Option String) (url : Option String) : DB :=
  { db with
    components :=
      db.components.filter (fun c => !(c.name == name)) ++
        [⟨name, category, description, doc_slug, url⟩] }

/-- Helper for `splitWs`, carrying the (reversed) current term. -/
def splitWsAux : List Char → List Char → List (List Char)
  | [], acc => if acc.isEmpty then [] else [acc.reverse]
  | c :: rest, acc =>
    if c.isWhitespace then
      if acc.isEmpty then splitWsAux rest [] else acc.reverse :: splitWsAux rest []
    else
      splitWsAux rest (c :: acc)

/-- Python `query.strip().split()`: the maximal whitespace-free runs of the
string, in order, with no empty terms. -/
def splitWs (l : List Char) : List (List Char) := splitWsAux l []

/-- The per-term quoting of `search_sections`: Python `f'"{term}"'`. -/
def quoteTerm (t : List Char) : List Char := '\"' :: (t ++ ['\"'])

/-- The query string `search_sections` hands to FTS5 `MATCH`:
Python `" ".join(f'"{term}"' for term in terms)` — the quoted terms joined by
single spaces. -/
def escapedQuery : List (List Char) → List Char
  | [] => []
  | [t] => quoteTerm t
  | t :: t2 :: ts => quoteTerm t ++ ' ' :: escapedQuery (t2 :: ts)

/-- The snippet computation of `search_sections`:
Python `content[:200] + "..." if len(content) > 200 else content`. -/
def snippetOf (content : List Char) : List Char :=
  if 200 < content.length then content.take 200 ++ ['.', '.', '.'] else content

/-- Model of the external SQLite FTS5 text-matching primitive, which is not
part of this repository: `matchQ e q` says whether index row `e` matches the
`MATCH` query string `q`, and `bm25 e q` is the raw `bm25(docs_sections_fts)`
value SQLite reports for that row under that query (documented by SQLite, and
by the comment in `search_sections`, to be negative-is-better). -/
structure Fts5Engine where
  matchQ : FtsEntry → List Char → Bool
  bm25 : FtsEntry → List Char → ℚ

/-- The rows produced by the `SELECT ... JOIN ... WHERE ... MATCH ?` of
`search_sections`, each with its raw `bm25(docs_sections_fts)` value: the FTS
rows matching the query, joined back to `docs_sections` on rowid. -/
def searchCandidates (E : Fts5Engine) (db : DB) (q : List Char) :
    List (SectionRow × ℚ) :=
  (db.fts.filter (fun e => E.matchQ e q)).filterMap (fun e =>
    (db.sections.find? (fun s => s.id == e.rowid)).map (fun s => (s, E.bm25 e q)))

/-- `search_sections`: tokenize, quote each term, run the `MATCH` query
joined back to `docs_sections` on rowid, `ORDER BY score` (raw BM25)
ascending, `LIMIT ?`, and build `DocResult`s with `score = abs(raw)` and the
200-character snippet. -/
def search_sections (E : Fts5Engine) (db : DB) (query : List Char)
    (limit : Nat) : List DocResult :=
  let terms := splitWs query
  if terms.isEmpty then []
  else
    let sorted := List.insertionSort (fun a b => a.2 ≤ b.2)
      (searchCandidates E db (escapedQuery terms))
    (sorted.take limit).map (fun r =>
      { slug := r.1.slug, title := r.1.title, score := abs r.2,
        snippet := snippetOf r.1.content, url := r.1.url })

/-- The rows of `SELECT ... FROM docs_sections WHERE slug = ? ORDER BY
position` in `get_page_sections`. -/
def pageRows (db : DB) (slug : String) : List SectionRow :=
  List.insertionSort (fun a b => a.position ≤ b.position)
    (db.sections.filter (fun s => s.slug == slug))

/-- `get_page_sections`: `None` on zero rows (`if not rows`), else a `DocPage`
taking slug/title/url from the first row `rows[0]`. -/
def get_page_sections (db : DB) (slug : String) : Option DocPage :=
  (pageRows db slug).head?.map (fun r0 =>
    { slug := r0.slug, title := r0.title, url := r0.url,
      sections := (pageRows db slug).map (fun r => ⟨r.heading, r.level, r.content⟩) })

/-- SQLite `ORDER BY name` under the default BINARY collation: lexicographic
comparison by code point (UTF-8 bytes are memcmp-ordered like code points). -/
def strLe : List Char → List Char → Bool
  | [], _ => true
  | _ :: _, [] => false
  | a :: as, b :: bs => if a < b then true else if b < a then false else strLe as bs

/-- Building a `ComponentInfo` from a `components` row, as the readers do. -/
def toInfo (c : ComponentRow) : ComponentInfo :=
  ⟨c.name, c.category, c.description, c.doc_slug, c.url⟩

/-- `list_all_components`: Python `if category:` is false for both `None` and
the empty string, so the `WHERE category = ?` branch runs only for a
non-empty category; either way `ORDER BY name`. -/
def list_all_components (db : DB) (category : Option String) : List ComponentInfo :=
  let comps :=
    match category with
    | some cat =>
      if cat.isEmpty then db.components
      else db.components.filter (fun c => c.category == some cat)
    | none => db.components
  (List.insertionSort (fun a b => strLe a.name b.name = true) comps).map toInfo

/-- The characters of the namespace marker `"rx."`. -/
def rxDot : List Char := ['r', 'x', '.']

/-- Python `name.replace("rx.", "")`: remove every (leftmost-first,
non-overlapping) occurrence of `"rx."`. -/
def replaceRxAll : List Char → List Char
  | 'r' :: 'x' :: '.' :: rest => replaceRxAll rest
  | c :: rest => c :: replaceRxAll rest
  | [] => []

/-- `SELECT * FROM components WHERE name = ?`: the `UNIQUE` lookup, modelled
as first match in rowid order. -/
def findComponent (db : DB) (n : List Char) : Option ComponentRow :=
  db.components.find? (fun c => c.name == n)

/-- `get_component_by_name`: first look up `name` itself if it starts with
`"rx."` and `"rx." + name` otherwise; on no row, look up
`name.replace("rx.", "")`; `None` only if both lookups fail. -/
def get_component_by_name (db : DB) (name : List Char) : Option ComponentInfo :=
  let searchName := if rxDot.isPrefixOf name then name else rxDot ++ name
  match findComponent db searchName with
  | some row => some (toInfo row)
  | none =>
    match findComponent db (replaceRxAll name) with
    | some row => some (toInfo row)
    | none => none

/-- `get_stats`: `COUNT(*)` over sections, `COUNT(DISTINCT slug)`, and
`COUNT(*)` over components. -/
def get_stats (db : DB) : Stats :=
  { sections := db.sections.length
    pages := ((db.sections.map (fun s => s.slug)).dedup).length
    components := db.components.length }

/-- The write operations exposed by the ingestion surface of `database.py`. -/
inductive Op where
  | insertSection (slug title heading : String) (level : Int)
      (content : List Char) (position : Int) (url : String)
  | insertComponent (name : List Char) (category : Option String)
      (description : String) (doc_slug : Option String) (url : Option String)
  | clearAll
deriving DecidableEq

/-- Execute one write operation. -/
def applyOp (db : DB) : Op → DB
  | .insertSection slug title heading level content position url =>
    insert_section db slug title heading level content position url
  | .insertComponent n c d ds u => insert_component db n c d ds u
  | .clearAll => clear_db db

/-- Execute a sequence of write operations against a fresh database. -/
def runOps (ops : List Op) : DB := ops.foldl applyOp init_db

/-! ### Reachable-state invariants -/

/-- The FTS index rows are exactly the per-section projections, in rowid
order: the synchronization invariant maintained by the triggers. -/
def Synced (db : DB) : Prop := db.fts = db.sections.map sectionProj

/-- The `UNIQUE` constraint on `components.name`. -/
def NamesNodup (db : DB) : Prop :=
  (db.components.map (fun c => c.name)).Nodup

lemma synced_clear {db : DB} (h : Synced db) : (clear_db db).fts = [] := by
  show db.fts.filter _ = []
  rw [h, List.filter_eq_nil_iff]
  rintro e he
  obtain ⟨s, hs, rfl⟩ := List.mem_map.mp he
  simp only [Bool.not_eq_true', Bool.not_eq_false]
  exact List.any_eq_true.mpr ⟨s, hs, by simp [sectionProj]⟩

lemma synced_applyOp {db : DB} (h : Synced db) (op : Op) : Synced (applyOp db op) := by
  cases op with
  | insertSection slug title heading level content position url =>
    show _ ++ _ = List.map _ (_ ++ _)
    rw [List.map_append, h]
    rfl
  | insertComponent n c d ds u => exact h
  | clearAll =>
    show (clear_db db).fts = List.map _ []
    rw [synced_clear h]
    rfl

lemma names_nodup_applyOp {db : DB} (h : NamesNodup db) (op : Op) :
    NamesNodup (applyOp db op) := by
  cases op with
  | insertSection slug title heading level content position url => exact h
  | insertComponent n c d ds u =>
    have hf : ((db.components.filter (fun x => !(x.name == n))).map (fun x => x.name)) =
        (db.components.map (fun x => x.name)).filter (fun m => !(m == n)) := by
      rw [List.filter_map]
      rfl
    show (((db.components.filter _) ++ [(⟨n, c, d, ds, u⟩ : ComponentRow)]).map
      (fun x => x.name)).Nodup
    rw [List.map_append, hf]
    refine List.Nodup.append (h.filter _) (List.nodup_singleton n) ?_
    intro a ha hb
    have h1 : (!(a == n)) = true := (List.mem_filter.mp ha).2
    have h2 : a = n := List.mem_singleton.mp hb
    simp [h2] at h1
  | clearAll => exact List.nodup_nil

lemma inv_foldl (l : List Op) :
    ∀ db : DB, Synced db ∧ NamesNodup db →
      Synced (l.foldl applyOp db) ∧ NamesNodup (l.foldl applyOp db) := by
  induction l with
  | nil => exact fun db h => h
  | cons op rest ih =>
    intro db h
    exact ih (applyOp db op) ⟨synced_applyOp h.1 op, names_nodup_applyOp h.2 op⟩

lemma synced_runOps (ops : List Op) : Synced (runOps ops) :=
  (inv_foldl ops init_db ⟨rfl, List.nodup_nil⟩).1

lemma names_nodup_runOps (ops : List Op) : NamesNodup (runOps ops) :=
  (inv_foldl ops init_db ⟨rfl, List.nodup_nil⟩).2

/-! ### The lexicographic byte order used by `ORDER BY name` -/

lemma strLe_total : ∀ a b : List Char, strLe a b = true ∨ strLe b a = true
  | [], _ => Or.inl rfl
  | _ :: _, [] => Or.inr rfl
  | a :: as, b :: bs => by
    rcases lt_trichotomy a b with h | h | h
    · left
      simp [strLe, h]
    · subst h
      rcases strLe_total as bs with ih | ih
      · left
        simp [strLe, lt_irrefl, ih]
      · right
        simp [strLe, lt_irrefl, ih]
    · right
      simp [strLe, h]

lemma strLe_trans :
    ∀ a b c : List Char, strLe a b = true → strLe b c = true → strLe a c = true
  | [], _, _, _, _ => rfl
  | _ :: _, [], _, h1, _ => by simp [strLe] at h1
  | _ :: _, _ :: _, [], _, h2 => by simp [strLe] at h2
  | a :: as, b :: bs, c :: cs, h1, h2 => by
    by_cases hab : a < b
    · by_cases hbc : b < c
      · simp [strLe, lt_trans hab hbc]
      · have hcb : ¬ c < b := by
          intro hcb
          simp [strLe, hbc, hcb] at h2
        have : b = c := le_antisymm (not_lt.mp hcb) (not_lt.mp hbc)
        subst this
        simp [strLe, hab]
    · by_cases hba : b < a
      · simp [strLe, hab, hba] at h1
      · have : a = b := le_antisymm (not_lt.mp hba) (not_lt.mp hab)
        subst this
        have h1' : strLe as bs = true := by simpa [strLe, lt_irrefl] using h1
        by_cases hac : a < c
        · simp [strLe, hac]
        · by_cases hca : c < a
          · simp [strLe, hac, hca] at h2
          · have h2' : strLe bs cs = true := by simpa [strLe, hac, hca] using h2
            simpa [strLe, hac, hca] using strLe_trans as bs cs h1' h2'

/-! ### Whitespace tokenization -/

lemma splitWsAux_all_ws {q : List Char} (hq : ∀ c ∈ q, c.isWhitespace = true) :
    splitWsAux q [] = [] := by
  induction q with
  | nil => rfl
  | cons c rest ih =>
    have hc := hq c (List.mem_cons_self c rest)
    have := ih (fun x hx => hq x (List.mem_cons_of_mem c hx))
    simp [splitWsAux, hc, this]

/-! ### Claim theorems -/

/-- C1: over every sequence of write operations, the FTS index stays in
lockstep with the section table — the index rows are exactly the projections
of the stored sections (keyed by section identity), each `insert_section`
adds exactly one index entry keyed to the new section's rowid in the same
transition as the store mutation, and `clear_db` empties the section table
and removes every index entry (one per deleted section) in the same
transition. -/
theorem fts_index_lockstep (ops : List Op) :
    (runOps ops).fts = (runOps ops).sections.map sectionProj
    ∧ (∀ slug title heading level content position url,
        (insert_section (runOps ops) slug title heading level content position url).fts =
          (runOps ops).fts ++ [sectionProj
            ⟨(runOps ops).nextId, slug, title, heading, level, content, position, url⟩])
    ∧ (clear_db (runOps ops)).fts = []
    ∧ (clear_db (runOps ops)).sections = [] :=
  ⟨synced_runOps ops, fun _ _ _ _ _ _ _ => rfl,
    synced_clear (synced_runOps ops), rfl⟩

/-- C2: `get_page_sections db slug` is `none` exactly when no stored section
has that slug, and when it returns a page, the page lists every section with
that slug, in non-decreasing `position` order, with the page-level slug,
title and url taken from a row of minimal position (the first row). -/
theorem get_page_ordered (db : DB) (slug : String) :
    (get_page_sections db slug = none ↔
      db.sections.filter (fun s => s.slug == slug) = [])
    ∧ ∀ p, get_page_sections db slug = some p →
        ∃ rows : List SectionRow,
          rows.Perm (db.sections.filter (fun s => s.slug == slug))
          ∧ rows.Pairwise (fun a b => a.position ≤ b.position)
          ∧ p.sections = rows.map (fun r => ⟨r.heading, r.level, r.content⟩)
          ∧ ∃ r0, rows.head? = some r0 ∧ p.slug = r0.slug ∧ p.title = r0.title
              ∧ p.url = r0.url ∧ ∀ r ∈ rows, r0.position ≤ r.position := by
  have hperm : (pageRows db slug).Perm (db.sections.filter (fun s => s.slug == slug)) :=
    List.perm_insertionSort _ _
  haveI : IsTotal SectionRow (fun a b => a.position ≤ b.position) :=
    ⟨fun a b => le_total _ _⟩
  haveI : IsTrans SectionRow (fun a b => a.position ≤ b.position) :=
    ⟨fun _ _ _ => le_trans⟩
  have hsort : (pageRows db slug).Pairwise (fun a b => a.position ≤ b.position) :=
    List.sorted_insertionSort _ _
  constructor
  · unfold get_page_sections
    constructor
    · intro h
      have h0 : pageRows db slug = [] :=
        List.head?_eq_none_iff.mp (Option.map_eq_none'.mp h)
      have hl := hperm.length_eq
      rw [h0] at hl
      exact List.eq_nil_of_length_eq_zero hl.symm
    · intro h
      have h0 : pageRows db slug = [] := by
        have hl := hperm.length_eq
        rw [h] at hl
        exact List.eq_nil_of_length_eq_zero hl
      rw [h0]
      rfl
  · intro p hp
    unfold get_page_sections at hp
    obtain ⟨r0, hr0, hfp⟩ := Option.map_eq_some'.mp hp
    subst hfp
    refine ⟨pageRows db slug, hperm, hsort, rfl, r0, hr0, rfl, rfl, rfl, ?_⟩
    intro r hr
    cases hrows : pageRows db slug with
    | nil =>
      rw [hrows] at hr0
      exact absurd hr0 (by simp)
    | cons a tail =>
      rw [hrows] at hr0 hr hsort
      obtain rfl : a = r0 := by simpa using hr0
      rcases List.mem_cons.mp hr with rfl | htail
      · exact le_refl _
      · exact (List.pairwise_cons.mp hsort).1 r htail

/-- C8: after `clear_db`, `get_stats` reports zero pages, sections and
components, every `get_page_sections` and `get_component_by_name` lookup
returns `none`, and on any state `get_stats` counts pages as the number of
distinct slugs (the cardinality of the set of slugs), not the number of
section rows. -/
theorem clear_all_resets (ops : List Op) (slug : String) (name : List Char) :
    get_stats (clear_db (runOps ops)) = ⟨0, 0, 0⟩
    ∧ get_page_sections (clear_db (runOps ops)) slug = none
    ∧ get_component_by_name (clear_db (runOps ops)) name = none
    ∧ (get_stats (runOps ops)).pages =
        ((runOps ops).sections.map (fun s => s.slug)).toFinset.card :=
  ⟨rfl, rfl, rfl, (List.card_toFinset _).symm⟩

lemma searchCandidates_snd_nonpos {E : Fts5Engine} (db : DB) (q : List Char)
    (hneg : ∀ e s, E.bm25 e s ≤ 0) :
    ∀ x ∈ searchCandidates E db q, x.2 ≤ 0 := by
  intro x hx
  obtain ⟨e, _, hge⟩ := List.mem_filterMap.mp hx
  obtain ⟨s, _, rfl⟩ := Option.map_eq_some'.mp hge
  exact hneg e q

lemma searchCandidates_fst_mem {E : Fts5Engine} {db : DB} {q : List Char}
    {x : SectionRow × ℚ} (hx : x ∈ searchCandidates E db q) :
    x.1 ∈ db.sections := by
  obtain ⟨e, _, hge⟩ := List.mem_filterMap.mp hx
  obtain ⟨s, hs, rfl⟩ := Option.map_eq_some'.mp hge
  exact List.mem_of_find?_eq_some hs

/-- C4: for every query and limit, the search result list never exceeds the
limit, and adjacent results are ordered by non-increasing reported score
(`abs` of the raw BM25 value, which SQLite reports as non-positive,
best = most negative, and which the query orders ascending). -/
theorem search_limit_and_rank (E : Fts5Engine) (db : DB) (q : List Char)
    (limit : Nat) (hneg : ∀ e s, E.bm25 e s ≤ 0) :
    (search_sections E db q limit).length ≤ limit
    ∧ (search_sections E db q limit).Chain' (fun r1 r2 => r2.score ≤ r1.score) := by
  by_cases hterms : (splitWs q).isEmpty
  · simp [search_sections, hterms]
  · have hval : search_sections E db q limit =
        ((List.insertionSort (fun a b => a.2 ≤ b.2)
          (searchCandidates E db (escapedQuery (splitWs q)))).take limit).map
          (fun r =>
            { slug := r.1.slug, title := r.1.title, score := abs r.2,
              snippet := snippetOf r.1.content, url := r.1.url }) := by
      simp [search_sections, hterms]
    rw [hval]
    constructor
    · simp only [List.length_map]
      exact List.length_take_le limit _
    · haveI : IsTotal (SectionRow × ℚ) (fun a b => a.2 ≤ b.2) :=
        ⟨fun a b => le_total _ _⟩
      haveI : IsTrans (SectionRow × ℚ) (fun a b => a.2 ≤ b.2) :=
        ⟨fun _ _ _ => le_trans⟩
      have hsorted : (List.insertionSort (fun a b : SectionRow × ℚ => a.2 ≤ b.2)
          (searchCandidates E db (escapedQuery (splitWs q)))).Pairwise
            (fun a b => a.2 ≤ b.2) :=
        List.sorted_insertionSort _ _
      have htake := List.Pairwise.sublist (List.take_sublist limit _) hsorted
      have habs : ((List.insertionSort (fun a b : SectionRow × ℚ => a.2 ≤ b.2)
          (searchCandidates E db (escapedQuery (splitWs q)))).take limit).Pairwise
            (fun a b => abs b.2 ≤ abs a.2) := by
        refine htake.imp_of_mem ?_
        intro a b ha hb hab
        have ha0 : a.2 ≤ 0 := searchCandidates_snd_nonpos db _ hneg a
          ((List.mem_insertionSort _).mp (List.mem_of_mem_take ha))
        have hb0 : b.2 ≤ 0 := searchCandidates_snd_nonpos db _ hneg b
          ((List.mem_insertionSort _).mp (List.mem_of_mem_take hb))
        rw [abs_of_nonpos ha0, abs_of_nonpos hb0]
        exact neg_le_neg hab
      exact (List.chain'_map _).mpr habs.chain'

/-- C9: every search result's snippet is the matched section's content when
that content has at most 200 characters, and otherwise is exactly the first
200 characters followed by `"..."`; in particular it never exceeds 203
characters. -/
theorem search_snippet_shape (E : Fts5Engine) (db : DB) (q : List Char)
    (limit : Nat) (r : DocResult) (hr : r ∈ search_sections E db q limit) :
    (∃ s ∈ db.sections, r.slug = s.slug ∧ r.url = s.url ∧
      ((s.content.length ≤ 200 ∧ r.snippet = s.content) ∨
        (200 < s.content.length ∧
          r.snippet = s.content.take 200 ++ ['.', '.', '.'])))
    ∧ r.snippet.length ≤ 203 := by
  by_cases hterms : (splitWs q).isEmpty
  · simp [search_sections, hterms] at hr
  · have hval : search_sections E db q limit =
        ((List.insertionSort (fun a b => a.2 ≤ b.2)
          (searchCandidates E db (escapedQuery (splitWs q)))).take limit).map
          (fun r =>
            { slug := r.1.slug, title := r.1.title, score := abs r.2,
              snippet := snippetOf r.1.content, url := r.1.url }) := by
      simp [search_sections, hterms]
    rw [hval] at hr
    obtain ⟨x, hx, rfl⟩ := List.mem_map.mp hr
    have hs : x.1 ∈ db.sections :=
      searchCandidates_fst_mem ((List.mem_insertionSort _).mp (List.mem_of_mem_take hx))
    constructor
    · refine ⟨x.1, hs, rfl, rfl, ?_⟩
      by_cases hlen : 200 < x.1.content.length
      · exact Or.inr ⟨hlen, by simp [snippetOf, hlen]⟩
      · exact Or.inl ⟨not_lt.mp hlen, by simp [snippetOf, hlen]⟩
    · show (snippetOf x.1.content).length ≤ 203
      unfold snippetOf
      split
      · next hlen =>
        simp only [List.length_append, List.length_take, List.length_cons,
          List.length_nil]
        omega
      · next hlen =>
        omega

/-- C6: a query that is empty or all whitespace produces the empty result
list, as an ordinary value. -/
theorem whitespace_query_empty (q : List Char)
    (hq : ∀ c ∈ q, c.isWhitespace = true) (E : Fts5Engine) (db : DB)
    (limit : Nat) : search_sections E db q limit = [] := by
  have h : splitWs q = [] := splitWsAux_all_ws hq
  simp [search_sections, h]

/-! ### Concrete fixtures used by the witnesses -/

/-- A trivial instantiation of the external FTS5 primitive for witnesses:
every row matches every query, with raw BM25 score `-1`. -/
def allMatchEngine : Fts5Engine := ⟨fun _ _ => true, fun _ _ => -1⟩

/-- Two sections of one page inserted out of position order. -/
def dbBox : DB :=
  insert_section
    (insert_section init_db "library/layout/box" "Box" "Usage" 2
      ("Use rx.box".toList) 1 "https://reflex.dev/docs/box")
    "library/layout/box" "Box" "Overview" 1 ("Box wraps".toList) 0
    "https://reflex.dev/docs/box"

/-- One section whose content is longer than 200 characters. -/
def dbLong : DB :=
  insert_section init_db "p" "T" "H" 1 (List.replicate 205 'a') 0 "u"

/-- The single result searching `dbLong` through `allMatchEngine` yields. -/
def longResult : DocResult :=
  ⟨"p", "T", 1, List.replicate 200 'a' ++ ['.', '.', '.'], "u"⟩

/-- Witness for C4 at a concrete engine, database, query and limit. -/
theorem search_limit_and_rank_witness :
    (search_sections allMatchEngine dbBox ("box docs".toList) 10).length ≤ 10
    ∧ (search_sections allMatchEngine dbBox ("box docs".toList) 10).Chain'
        (fun r1 r2 => r2.score ≤ r1.score) :=
  search_limit_and_rank allMatchEngine dbBox _ 10 (fun _ _ => by norm_num [allMatchEngine])

set_option maxRecDepth 4000 in
/-- Witness for C9 at a concrete over-200-character section. -/
theorem search_snippet_shape_witness :
    (∃ s ∈ dbLong.sections, longResult.slug = s.slug ∧ longResult.url = s.url ∧
      ((s.content.length ≤ 200 ∧ longResult.snippet = s.content) ∨
        (200 < s.content.length ∧
          longResult.snippet = s.content.take 200 ++ ['.', '.', '.'])))
    ∧ longResult.snippet.length ≤ 203 :=
  search_snippet_shape allMatchEngine dbLong ("box".toList) 10 longResult (by decide)

/-- Witness for C6 at a concrete whitespace-only query. -/
theorem whitespace_query_empty_witness :
    search_sections allMatchEngine dbBox [' ', '\t', '\n'] 10 = [] :=
  whitespace_query_empty _ (by decide) allMatchEngine dbBox 10

/-! ### Component name uniqueness -/

lemma length_filter_split (p : ComponentRow → Bool) (l : List ComponentRow) :
    l.length = (l.filter p).length + (l.filter (fun a => !(p a))).length := by
  induction l with
  | nil => rfl
  | cons a l ih =>
    cases h : p a <;> simp [List.filter_cons, h, ih] <;> omega

lemma filter_name_length_eq_one {comps : List ComponentRow} {n : List Char}
    (h : (comps.map (fun x => x.name)).Nodup)
    (hmem : ∃ c0 ∈ comps, c0.name = n) :
    (comps.filter (fun x => x.name == n)).length = 1 := by
  induction comps with
  | nil =>
    obtain ⟨c0, h0, _⟩ := hmem
    exact absurd h0 (List.not_mem_nil c0)
  | cons c cs ih =>
    rw [List.map_cons] at h
    obtain ⟨hnotin, hnodup⟩ := List.nodup_cons.mp h
    by_cases hc : c.name = n
    · have hfil : cs.filter (fun x => x.name == n) = [] := by
        rw [List.filter_eq_nil_iff]
        intro x hx hxn
        apply hnotin
        have hx' : x.name = c.name := by
          rw [hc]
          simpa using hxn
        exact hx' ▸ List.mem_map.mpr ⟨x, hx, rfl⟩
      simp [List.filter_cons, hc, hfil]
    · have hcb : (c.name == n) = false := by simpa using hc
      rw [List.filter_cons, hcb]
      simp only [Bool.false_eq_true, if_false]
      refine ih hnodup ?_
      obtain ⟨c0, h0, hn⟩ := hmem
      rcases List.mem_cons.mp h0 with rfl | h0c
      · exact absurd hn hc
      · exact ⟨c0, h0c, hn⟩

lemma sorted_map_names_nodup {comps : List ComponentRow}
    (hc : (comps.map (fun x => x.name)).Nodup) :
    (((List.insertionSort (fun a b => strLe a.name b.name = true) comps).map
      toInfo).map (fun i => i.name)).Nodup := by
  rw [List.map_map]
  have hcomp : ((fun i : ComponentInfo => i.name) ∘ toInfo) =
      (fun x : ComponentRow => x.name) := rfl
  rw [hcomp]
  have hperm := (List.perm_insertionSort
    (fun a b : ComponentRow => strLe a.name b.name = true) comps).map
      (fun x : ComponentRow => x.name)
  exact hperm.symm.nodup hc

lemma list_all_names_nodup {db : DB} (h : NamesNodup db) (cat : Option String) :
    ((list_all_components db cat).map (fun i => i.name)).Nodup := by
  cases cat with
  | none => exact sorted_map_names_nodup h
  | some c =>
    by_cases hcempty : c.isEmpty
    · simpa [list_all_components, hcempty] using sorted_map_names_nodup h
    · have hsub : ((db.components.filter (fun x => x.category == some c)).map
          (fun x => x.name)).Nodup :=
        ((List.filter_sublist _).map (fun x : ComponentRow => x.name)).nodup h
      simpa [list_all_components, hcempty] using sorted_map_names_nodup hsub

/-- C7: `name` is a unique key for components: after an upsert exactly one
stored record carries the upserted name, holding the new field values;
upserting a name that is already present leaves the component count
unchanged (replace, not append); and `list_all_components` never returns two
records with the same name. -/
theorem component_upsert_unique (ops : List Op) (n : List Char)
    (c : Option String) (d : String) (ds u : Option String) :
    (insert_component (runOps ops) n c d ds u).components.filter
        (fun x => x.name == n) = [⟨n, c, d, ds, u⟩]
    ∧ ((∃ c0 ∈ (runOps ops).components, c0.name = n) →
        (insert_component (runOps ops) n c d ds u).components.length =
          (runOps ops).components.length)
    ∧ ∀ cat, ((list_all_components (insert_component (runOps ops) n c d ds u)
        cat).map (fun i => i.name)).Nodup := by
  refine ⟨?_, ?_, ?_⟩
  · show ((runOps ops).components.filter _ ++ _).filter _ = _
    rw [List.filter_append]
    have h1 : ((runOps ops).components.filter (fun x => !(x.name == n))).filter
        (fun x => x.name == n) = [] := by
      rw [List.filter_eq_nil_iff]
      intro x hx
      have h2 := (List.mem_filter.mp hx).2
      simp only [Bool.not_eq_true'] at h2
      simp [h2]
    rw [h1]
    simp
  · intro hex
    have h2 := filter_name_length_eq_one (names_nodup_runOps ops) hex
    have h1 := length_filter_split (fun x => x.name == n) (runOps ops).components
    show ((runOps ops).components.filter _ ++ [_]).length = _
    rw [List.length_append]
    simp only [List.length_cons, List.length_nil]
    omega
  · intro cat
    exact list_all_names_nodup
      (names_nodup_applyOp (names_nodup_runOps ops) (.insertComponent n c d ds u)) cat

/-- The single upsert that populates the witness database for C7. -/
def opsButton : List Op :=
  [.insertComponent ("rx.button".toList) (some "forms") "A clickable button"
    none none]

/-- Witness for C7: re-upserting `rx.button` with a new description leaves
the component count unchanged. -/
theorem component_upsert_unique_witness :
    (insert_component (runOps opsButton) ("rx.button".toList) (some "forms")
      "Updated description" none none).components.length =
      (runOps opsButton).components.length :=
  (component_upsert_unique opsButton ("rx.button".toList) (some "forms")
    "Updated description" none none).2.1
    ⟨⟨"rx.button".toList, some "forms", "A clickable button", none, none⟩,
      by decide, rfl⟩

/-- C10: passing the empty string as the category behaves exactly like
passing no category: every stored component is returned (not only those with
an empty category), ordered by name ascending. -/
theorem list_components_empty_category (db : DB) :
    list_all_components db (some "") = list_all_components db none
    ∧ (list_all_components db (some "")).Perm (db.components.map toInfo)
    ∧ ((list_all_components db (some "")).map (fun i => i.name)).Pairwise
        (fun a b => strLe a b = true) := by
  refine ⟨rfl, ?_, ?_⟩
  · exact (List.perm_insertionSort _ _).map toInfo
  · haveI : IsTotal ComponentRow (fun a b => strLe a.name b.name = true) :=
      ⟨fun a b => strLe_total a.name b.name⟩
    haveI : IsTrans ComponentRow (fun a b => strLe a.name b.name = true) :=
      ⟨fun a b c => strLe_trans a.name b.name c.name⟩
    have hs := List.sorted_insertionSort
      (fun a b : ComponentRow => strLe a.name b.name = true) db.components
    show ((List.insertionSort _ db.components).map toInfo |>.map
      (fun i => i.name)).Pairwise _
    rw [List.map_map, List.pairwise_map]
    exact hs

/-! ### Component alias resolution -/

/-- The lookup rule exactly as the specification words it: on a first-lookup
miss, retry with a single leading `"rx."` stripped from the original input
(the input unchanged when the prefix is absent).  Stated for comparison with
`get_component_by_name`, whose second lookup instead removes every
occurrence of `"rx."`. -/
def get_component_claimed (db : DB) (name : List Char) : Option ComponentInfo :=
  let searchName := if rxDot.isPrefixOf name then name else rxDot ++ name
  match findComponent db searchName with
  | some row => some (toInfo row)
  | none =>
    match findComponent db (if rxDot.isPrefixOf name then name.drop 3 else name) with
    | some row => some (toInfo row)
    | none => none

/-- A database holding the single component `rx.button`, as in the
specification's alias scenario. -/
def dbRx : DB :=
  insert_component init_db ("rx.button".toList) (some "forms")
    "A clickable button" none none

/-- Counterexample to C3 as stated: on input `"rx.rx.button"` the code's
second lookup removes every `"rx."` occurrence (Python `str.replace`), so it
looks up `"button"` and finds nothing, while the claimed leading-prefix
strip would look up `"rx.button"` and find the stored record. -/
theorem get_component_alias_cex :
    get_component_by_name dbRx ("rx.rx.button".toList) = none
    ∧ get_component_claimed dbRx ("rx.rx.button".toList) =
        some ⟨"rx.button".toList, some "forms", "A clickable button", none, none⟩ := by
  decide

/-- C3 (amended): resolution is two lookups — `name` itself when it starts
with `"rx."` and `"rx." + name` otherwise, then, on a miss, the input with
every occurrence of `"rx."` removed (Python `replace`, not a leading-prefix
strip) — `none` exactly when both lookups miss; and for an input containing
no `"rx."` at all, the bare and `rx.`-prefixed spellings resolve
identically. -/
theorem get_component_alias_resolution (db : DB) (name : List Char) :
    get_component_by_name db name =
      (Option.orElse
        (findComponent db (if rxDot.isPrefixOf name then name else rxDot ++ name))
        (fun _ => findComponent db (replaceRxAll name))).map toInfo
    ∧ (get_component_by_name db name = none ↔
        findComponent db (if rxDot.isPrefixOf name then name else rxDot ++ name) = none
          ∧ findComponent db (replaceRxAll name) = none)
    ∧ ((¬ rxDot.isPrefixOf name = true) → replaceRxAll name = name →
        get_component_by_name db (rxDot ++ name) = get_component_by_name db name) := by
  refine ⟨?_, ?_, ?_⟩
  · simp only [get_component_by_name]
    cases findComponent db (if rxDot.isPrefixOf name then name else rxDot ++ name) with
    | some row => rfl
    | none =>
      cases findComponent db (replaceRxAll name) with
      | some row => rfl
      | none => rfl
  · simp only [get_component_by_name]
    cases findComponent db (if rxDot.isPrefixOf name then name else rxDot ++ name) with
    | some row => simp
    | none =>
      cases findComponent db (replaceRxAll name) with
      | some row => simp
      | none => simp
  · intro hpre hrep
    have e1 : rxDot.isPrefixOf (rxDot ++ name) = true :=
      List.isPrefixOf_iff_prefix.mpr (List.prefix_append rxDot name)
    have e2 : replaceRxAll (rxDot ++ name) = replaceRxAll name := rfl
    unfold get_component_by_name
    rw [if_pos e1, if_neg hpre, e2]

/-- Witness for C3's amended theorem: with `rx.button` stored, the bare and
the namespaced spelling resolve to the identical record. -/
theorem get_component_alias_witness :
    get_component_by_name dbRx (rxDot ++ ("button".toList)) =
      get_component_by_name dbRx ("button".toList) :=
  (get_component_alias_resolution dbRx ("button".toList)).2.2 (by decide) (by decide)

/-! ### FTS5 quoting -/

/-- Lexer state while scanning an FTS5 query string as a sequence of quoted
string literals: between literals, inside a literal, or just past a `\x22`
inside a literal (which is either the closing quote or the first half of an
escaped `\x22\x22` pair). -/
inductive ScanState where
  | outside
  | inside (cur : List Char)
  | quoted (cur : List Char)
deriving DecidableEq

/-- Model of SQLite's FTS5 query-string lexer, restricted to what correct
per-term quoting must produce: a whitespace-separated sequence of
double-quoted string literals, where a quote inside a literal is written as
two consecutive quotes.  Returns the literal contents in order, and `none`
when the input is not such a sequence — an unterminated literal (which FTS5
rejects with "fts5: syntax error"), or a bare token outside any literal
(which FTS5 would lex as query syntax rather than as user text). -/
def phraseScanAcc : List Char → ScanState → List (List Char) →
    Option (List (List Char))
  | [], .outside, acc => some acc
  | [], .inside _, _ => none
  | [], .quoted cur, acc => some (acc ++ [cur])
  | c :: rest, .outside, acc =>
    if c = '\"' then phraseScanAcc rest (.inside []) acc
    else if c.isWhitespace then phraseScanAcc rest .outside acc
    else none
  | c :: rest, .inside cur, acc =>
    if c = '\"' then phraseScanAcc rest (.quoted cur) acc
    else phraseScanAcc rest (.inside (cur ++ [c])) acc
  | c :: rest, .quoted cur, acc =>
    if c = '\"' then phraseScanAcc rest (.inside (cur ++ ['\"'])) acc
    else if c.isWhitespace then phraseScanAcc rest .outside (acc ++ [cur])
    else none

/-- A whole query string read as a sequence of quoted literals. -/
def fts5PhraseSeq (q : List Char) : Option (List (List Char)) :=
  phraseScanAcc q .outside []

lemma phraseScan_inside (t : List Char) (ht : '\"' ∉ t) :
    ∀ cur, ∀ rest acc, phraseScanAcc (t ++ '\"' :: rest) (.inside cur) acc =
      phraseScanAcc rest (.quoted (cur ++ t)) acc := by
  induction t with
  | nil =>
    intro cur rest acc
    simp [phraseScanAcc]
  | cons c t2 ih =>
    intro cur rest acc
    have hc : ¬ c = '\"' := fun h => ht (h ▸ List.mem_cons_self c t2)
    simp only [List.cons_append, phraseScanAcc, if_neg hc, List.append_eq]
    rw [ih (fun h => ht (List.mem_cons_of_mem c h)) (cur ++ [c]) rest acc]
    simp [List.append_assoc]

lemma phraseScan_escaped (terms : List (List Char))
    (ht : ∀ t ∈ terms, '\"' ∉ t) :
    ∀ acc, phraseScanAcc (escapedQuery terms) .outside acc = some (acc ++ terms) := by
  induction terms with
  | nil =>
    intro acc
    simp [escapedQuery, phraseScanAcc]
  | cons t ts ih =>
    intro acc
    have ht0 : '\"' ∉ t := ht t (List.mem_cons_self t ts)
    cases ts with
    | nil =>
      show phraseScanAcc (quoteTerm t) .outside acc = _
      have hq : quoteTerm t = '\"' :: (t ++ '\"' :: []) := rfl
      rw [hq]
      simp only [phraseScanAcc, if_pos rfl]
      rw [phraseScan_inside t ht0 [] [] acc]
      simp [phraseScanAcc]
    | cons t2 ts2 =>
      show phraseScanAcc (quoteTerm t ++ ' ' :: escapedQuery (t2 :: ts2))
        .outside acc = _
      have hq : quoteTerm t ++ ' ' :: escapedQuery (t2 :: ts2) =
          '\"' :: (t ++ '\"' :: (' ' :: escapedQuery (t2 :: ts2))) := by
        simp [quoteTerm]
      rw [hq]
      simp only [phraseScanAcc, if_pos rfl]
      rw [phraseScan_inside t ht0 [] (' ' :: escapedQuery (t2 :: ts2)) acc]
      have hws : ¬ (' ' = '\"') := by decide
      simp only [phraseScanAcc, if_neg hws, if_pos (by decide : (' ').isWhitespace = true)]
      rw [ih (fun x hx => ht x (List.mem_cons_of_mem t hx)) (acc ++ [[] ++ t])]
      simp

/-- Proper behaviour on quote-free input: every term reaches the index as an
exact opaque literal, never as query syntax. -/
lemma fts5PhraseSeq_escaped (terms : List (List Char))
    (ht : ∀ t ∈ terms, '\"' ∉ t) :
    fts5PhraseSeq (escapedQuery terms) = some terms := by
  have h := phraseScan_escaped terms ht []
  simpa [fts5PhraseSeq] using h

/-- C5 (refuted — code bug in `search_sections`): wrapping a term in quotes
does not escape a double quote inside the term.  The one-term query
`he\"llo` becomes the string `\"he\"llo\"`, which is not a sequence of quoted
literals — its three quotes leave a literal unterminated, so FTS5 raises
"fts5: syntax error" instead of the claim's error-free search — while
quote-free terms such as `rx.button foo-bar` are passed through as exact
phrases. -/
theorem search_escape_quote_bug :
    fts5PhraseSeq (escapedQuery (splitWs ("he\"llo".toList))) = none
    ∧ (escapedQuery (splitWs ("he\"llo".toList))).count '\"' = 3
    ∧ fts5PhraseSeq (escapedQuery (splitWs ("rx.button foo-bar".toList))) =
        some ["rx.button".toList, "foo-bar".toList] := by
  decide

end ReflexDocs
